import Mathlib

/-!
Verification of the EV-infrastructure-optimization core against its
natural-language specification.

The development shallowly embeds the relevant parts of the source:

* `src/src/models.py` — `StationClusterer` (`find_gaps`,
  `recommend_locations`), the Gap & Placement engine;
* `src/src/models/optimization.py` — `analyze_load_profile`,
  `optimize_charging_schedule` (LP constraints), `_heuristic_optimization`;
* `src/src/models/clustering.py` — `run_kmeans` candidate-range and
  model-selection logic.

Floating-point values are modelled as exact rationals (ℚ); the haversine
distance computed by sklearn's BallTree (metric 'haversine' on radians,
scaled by the 6371 km Earth radius) is modelled exactly over ℝ.
Mutable `self` attributes of `StationClusterer` are modelled by explicit
state passing (`ClustererState`).  Python exceptions are modelled as
`none` results.
-/

/-! ### Geometry: points and the haversine metric -/

/-- A `latitude`/`longitude` row of the station table
(`src/src/models.py`, columns used in lines 35-36). -/
structure GeoPoint where
  latitude : ℚ
  longitude : ℚ
deriving DecidableEq

/-- A row of the demand-hotspot table: coordinates plus `demand_score`
(`src/src/models.py`, lines 36 and 80). -/
structure DemandPoint where
  latitude : ℚ
  longitude : ℚ
  demand_score : ℚ
deriving DecidableEq

/-- The coordinate columns of a demand row. -/
def DemandPoint.pos (d : DemandPoint) : GeoPoint :=
  ⟨d.latitude, d.longitude⟩

/-- Great-circle distance in km between two points given in degrees:
`np.radians` conversion (lines 35-36) followed by the BallTree
`haversine` metric, whose radian output the code compares against
`coverage_radius_km / 6371.0` (lines 49-53).  Scaling both sides by
6371 km gives this kilometre-valued form. -/
noncomputable def haversineKm (p q : GeoPoint) : ℝ :=
  2 * 6371 * Real.arcsin (Real.sqrt
    (Real.sin (((q.latitude : ℝ) - (p.latitude : ℝ)) * Real.pi / 180 / 2) ^ 2 +
      Real.cos ((p.latitude : ℝ) * Real.pi / 180) *
        Real.cos ((q.latitude : ℝ) * Real.pi / 180) *
        Real.sin (((q.longitude : ℝ) - (p.longitude : ℝ)) * Real.pi / 180 / 2) ^ 2))

open Classical in
/-- `tree.query_radius(demand_rad, r=radius_rad, count_only=True)` for one
query point `q`: the number of stations within `r` km by haversine
distance (`src/src/models.py`, line 53). -/
noncomputable def countWithin (r : ℝ) (q : GeoPoint) : List GeoPoint → ℕ
  | [] => 0
  | s :: rest => (if haversineKm s q ≤ r then 1 else 0) + countWithin r q rest

/-- `demand_hotspots[counts == 0]` (`src/src/models.py`, lines 56-57):
the demand rows whose station count within the radius is zero. -/
noncomputable def gapFilter (r : ℝ) (stations : List GeoPoint) :
    List DemandPoint → List DemandPoint
  | [] => []
  | d :: rest =>
    if countWithin r d.pos stations = 0 then d :: gapFilter r stations rest
    else gapFilter r stations rest

/-! ### The `StationClusterer` component state -/

/-- The mutable attributes of a `StationClusterer` instance
(`src/src/models.py`, lines 25-28): constructor configuration, the
`gap_points` attribute written by `find_gaps` (absent before the first
call, modelled by `none`), and the `n_clusters` attribute of the KMeans
model reassigned by `recommend_locations` (line 73). -/
structure ClustererState where
  n_new_stations : ℕ
  coverage_radius_km : ℚ
  gap_points : Option (List DemandPoint)
  model_n_clusters : ℕ
deriving DecidableEq

/-- `StationClusterer.find_gaps` (`src/src/models.py`, lines 30-59).
Returns the gap rows and the successor state (the method stores the
result in `self.gap_points`, line 57).  `none` models the `ValueError`
raised by sklearn's sample-count validation: building the BallTree from
an empty station set (line 46) and, symmetrically, querying it with an
empty demand set — `tree.query_radius(demand_rad, ...)` at line 53 runs
the same `check_array` check, which requires at least one query sample.
Either error fires before line 57, so no state is written. -/
noncomputable def find_gaps (st : ClustererState) (existing_stations : List GeoPoint)
    (demand_hotspots : List DemandPoint) :
    Option (List DemandPoint × ClustererState) :=
  if existing_stations = [] then none
  else if demand_hotspots = [] then none
  else
    let gaps := gapFilter (st.coverage_radius_km : ℝ) existing_stations demand_hotspots
    some (gaps, { st with gap_points := some gaps })

/-! ### Scenario A concrete points (spec §8) -/

/-- Scenario A: the existing station at (28.70, 77.10). -/
def delhiStation : GeoPoint := ⟨287/10, 771/10⟩

/-- Scenario A: the served demand point (28.70, 77.10, score 5). -/
def delhiDemand : DemandPoint := ⟨287/10, 771/10, 5⟩

/-- Scenario A: the unserved demand point (12.97, 77.59, score 8). -/
def blrDemand : DemandPoint := ⟨1297/100, 7759/100, 8⟩

/-! ### `recommend_locations` (src/src/models.py, lines 61-86)

The KMeans fit itself is library code whose labelling depends on the
seeded k-means++ initialisation; it is modelled by an explicit label
list (one label per gap point).  At KMeans convergence
`model.cluster_centers_[c]` equals the coordinate mean of the points
labelled `c`, which is how the centres are embedded below. -/

/-- A row of the recommendations frame: exactly the columns
`latitude`, `longitude`, `priority_score` (lines 64, 82-83). -/
structure RecSite where
  latitude : ℚ
  longitude : ℚ
  priority_score : ℚ
deriving DecidableEq

/-- The gap points labelled `c` by the fit (line 74). -/
def clusterMembers (gaps : List DemandPoint) (labels : List ℕ) (c : ℕ) :
    List DemandPoint :=
  ((gaps.zip labels).filter (fun p => p.2 = c)).map Prod.fst

/-- One output row per cluster (lines 77-83): the centre is the
coordinate mean of the members (`cluster_centers_` at convergence), the
priority score is `groupby('cluster')['demand_score'].sum()`. -/
def clusterRow (gaps : List DemandPoint) (labels : List ℕ) (c : ℕ) : RecSite :=
  let members := clusterMembers gaps labels c
  { latitude := (members.map (·.latitude)).sum / (members.length : ℚ),
    longitude := (members.map (·.longitude)).sum / (members.length : ℚ),
    priority_score := (members.map (·.demand_score)).sum }

/-- Stable insertion into a list kept ascending by `priority_score`: the
new element moves left past strictly greater scores only.  This is the
comparison numpy's argsort performs (an insertion sort for the small
arrays arising here), which underlies `sort_values`. -/
def insertByScore (x : ℕ × RecSite) :
    List (ℕ × RecSite) → List (ℕ × RecSite)
  | [] => [x]
  | y :: ys =>
    if x.2.priority_score < y.2.priority_score then x :: y :: ys
    else y :: insertByScore x ys

/-- Stable ascending sort by `priority_score` (elements are processed in
input order, so equal scores keep their input order). -/
def sortAscAux (acc : List (ℕ × RecSite)) :
    List (ℕ × RecSite) → List (ℕ × RecSite)
  | [] => acc
  | x :: xs => sortAscAux (insertByScore x acc) xs

/-- `sort_values('priority_score', ascending=False)` (line 84): pandas
computes the ascending argsort and reverses it, so the descending order
is the reverse of the stable ascending order. -/
def sortDescByScore (l : List (ℕ × RecSite)) : List (ℕ × RecSite) :=
  (sortAscAux [] l).reverse

/-- `StationClusterer.recommend_locations` (lines 61-86).  The method
takes no call arguments: it reads `self.gap_points` and
`self.n_new_stations`, reassigns `self.model.n_clusters` (line 73), and
returns the sorted recommendations frame.  The rows are produced in
cluster-id order 0..k−1 (`cluster_centers_` row order) before sorting. -/
def recommend_locations (st : ClustererState) (labels : List ℕ) :
    List RecSite × ClustererState :=
  match st.gap_points with
  | none => ([], st)
  | some gaps =>
    if gaps = [] then ([], st)
    else
      let k := min st.n_new_stations gaps.length
      if k = 0 then ([], st)
      else
        let rows := (List.range k).map (fun c => (c, clusterRow gaps labels c))
        ((sortDescByScore rows).map Prod.snd,
          { st with model_n_clusters := k })

/-- Validity of a fitted label assignment for `k` clusters: one label
per gap point, labels in `[0, k)`, and no empty cluster (sklearn's
KMeans never leaves a cluster empty). -/
def validLabels (gaps : List DemandPoint) (k : ℕ) (labels : List ℕ) : Prop :=
  labels.length = gaps.length ∧ (∀ l ∈ labels, l < k) ∧ ∀ c < k, c ∈ labels

instance validLabels.instDecidable (gaps : List DemandPoint) (k : ℕ)
    (labels : List ℕ) : Decidable (validLabels gaps k labels) := by
  unfold validLabels
  infer_instance

/-- One element of `hourly_profile`: a record {"hour_of_day": h,
"load": v} (optimization.py line 95). -/
structure HourlyBin where
  hour_of_day : ℕ
  load : ℚ
deriving DecidableEq

/-- Python's `max` over a nonempty list (lines 135-136, 181-182);
the empty case never arises in the source and is given a junk value. -/
def listMax : List ℚ → ℚ
  | [] => 0
  | x :: xs => xs.foldl max x

/-- `np.mean` of a list (line 160). -/
def meanQ (l : List ℚ) : ℚ := l.sum / (l.length : ℚ)

/-- `round(x, 2)` (lines 148-150, 194-196). -/
def round2 (x : ℚ) : ℚ := ((round (x * 100) : ℤ) : ℚ) / 100

/-- The result dict shared by both optimization paths (lines 144-151 and
190-197).  Note: it has no residual field of any kind. -/
structure ScheduleResult where
  method : String
  original_load : List ℚ
  optimized_load : List ℚ
  original_peak : ℚ
  optimized_peak : ℚ
  peak_reduction_pct : ℚ
deriving DecidableEq

/-- Pass 1 of `_heuristic_optimization` (lines 165-172): each hour above
1.2x the mean is shaved by `shift_pct` of its load into the excess pool;
returns the shaved profile and the pooled excess. -/
def shavePeaks (avg s : ℚ) : List ℚ → List ℚ × ℚ
  | [] => ([], 0)
  | l :: rest =>
    let r := shavePeaks avg s rest
    if l > avg * (12/10) then ((l - l * s) :: r.1, l * s + r.2)
    else (l :: r.1, r.2)

/-- Pass 2 (lines 174-179): scanning in index order, each hour below
0.8x the mean absorbs from the pool up to `avg - load`; returns the
filled profile and the unabsorbed leftover (which the source then
discards). -/
def fillValleys (avg : ℚ) : List ℚ → ℚ → List ℚ × ℚ
  | [], excess => ([], excess)
  | l :: rest, excess =>
    if l < avg * (8/10) ∧ excess > 0 then
      let fill := min excess (avg - l)
      let r := fillValleys avg rest (excess - fill)
      ((l + fill) :: r.1, r.2)
    else
      let r := fillValleys avg rest excess
      (l :: r.1, r.2)

/-- `_heuristic_optimization` (lines 157-197). -/
def _heuristic_optimization (hourly_profile : List HourlyBin)
    (shift_pct : ℚ) : ScheduleResult :=
  let original_load := hourly_profile.map (fun b => b.load)
  let avg_load := meanQ original_load
  let p1 := shavePeaks avg_load shift_pct original_load
  let p2 := fillValleys avg_load p1.1 p1.2
  let original_peak := listMax original_load
  let optimized_peak := listMax p2.1
  { method := "Heuristic (Peak Shaving)",
    original_load := original_load,
    optimized_load := p2.1,
    original_peak := round2 original_peak,
    optimized_peak := round2 optimized_peak,
    peak_reduction_pct := round2 ((1 - optimized_peak / original_peak) * 100) }

/-- The excess still in the pool when Pass 2 finishes — the quantity the
source silently drops (it is a local variable never read again after
line 179). -/
def heuristicLeftover (hourly_profile : List HourlyBin) (shift_pct : ℚ) : ℚ :=
  let original_load := hourly_profile.map (fun b => b.load)
  let avg_load := meanQ original_load
  let p1 := shavePeaks avg_load shift_pct original_load
  (fillValleys avg_load p1.1 p1.2).2

/-- The feasible set of the PuLP program (lines 112-128): nonnegative
hourly loads each bounded by the peak variable, exact total-load
conservation (the equality constraint of line 124), and the per-hour
lower bounds `original_load[i] * (1 - shift_pct)` (line 128). -/
def lpFeasible (original_load : List ℚ) (shift_pct : ℚ)
    (x : List ℚ) (peak : ℚ) : Prop :=
  0 ≤ peak ∧
  List.Forall₂ (fun o xi => 0 ≤ xi ∧ xi ≤ peak ∧ o * (1 - shift_pct) ≤ xi)
    original_load x ∧
  x.sum = original_load.sum

/-- `prob.solve()` reaching status 1 = Optimal (lines 130-132): a
feasible point whose peak value is minimal among feasible points. -/
def lpOptimal (original_load : List ℚ) (shift_pct : ℚ)
    (x : List ℚ) (peak : ℚ) : Prop :=
  lpFeasible original_load shift_pct x peak ∧
  ∀ y q, lpFeasible original_load shift_pct y q → peak ≤ q

/-- Scenario-style 24-hour profile with one spiked hour: load 30 at
hour 0 and load 10 at hours 1-23. -/
def spikedProfile : List HourlyBin :=
  [⟨0, 30⟩, ⟨1, 10⟩, ⟨2, 10⟩, ⟨3, 10⟩, ⟨4, 10⟩, ⟨5, 10⟩, ⟨6, 10⟩, ⟨7, 10⟩,
   ⟨8, 10⟩, ⟨9, 10⟩, ⟨10, 10⟩, ⟨11, 10⟩, ⟨12, 10⟩, ⟨13, 10⟩, ⟨14, 10⟩,
   ⟨15, 10⟩, ⟨16, 10⟩, ⟨17, 10⟩, ⟨18, 10⟩, ⟨19, 10⟩, ⟨20, 10⟩, ⟨21, 10⟩,
   ⟨22, 10⟩, ⟨23, 10⟩]

/-! ### Load profile analysis (src/src/models/optimization.py, lines 41-81) -/

/-- A usage row: its hour-of-day value and the value of the detected
energy column (ignored when no energy column exists). -/
structure UsageRow where
  hour_of_day : ℕ
  energy : ℚ
deriving DecidableEq

/-- The usage frame: `hasHourCol` models whether "hour_of_day" is among
`df.columns` (line 47), `hasEnergyCol` whether one of the energy-column
candidates of line 52 is. -/
structure UsageTable where
  hasHourCol : Bool
  hasEnergyCol : Bool
  rows : List UsageRow
deriving DecidableEq

/-- Ordered duplicate-free insertion of a groupby key (pandas groupby
sorts its keys ascending and merges duplicate keys). -/
def insHour (h : ℕ) : List ℕ → List ℕ
  | [] => [h]
  | x :: xs =>
    if h < x then h :: x :: xs
    else if h = x then x :: xs
    else x :: insHour h xs

/-- The distinct hour keys present in the rows, ascending — the groupby
index of lines 59/61.  Hours absent from the input are NOT added. -/
def presentHours (rows : List UsageRow) : List ℕ :=
  rows.foldl (fun acc r => insHour r.hour_of_day acc) []

/-- The aggregated load of one present hour: the sum of the energy
column over that hour's rows (line 61), or the row count when no energy
column exists (line 59). -/
def loadOf (t : UsageTable) (h : ℕ) : ℚ :=
  if t.hasEnergyCol then
    ((t.rows.filter (fun r => r.hour_of_day = h)).map (fun r => r.energy)).sum
  else ((t.rows.filter (fun r => r.hour_of_day = h)).length : ℚ)

/-- The `hourly` frame: (hour_of_day, load) rows in ascending hour
order, one per hour present in the input. -/
def hourlyProfile (t : UsageTable) : List (ℕ × ℚ) :=
  (presentHours t.rows).map (fun h => (h, loadOf t h))

/-- First index of the maximum — `idxmax` (line 67). -/
def argmaxIdx : List ℚ → ℕ
  | [] => 0
  | [_] => 0
  | x :: y :: rest => if listMax (y :: rest) ≤ x then 0 else argmaxIdx (y :: rest) + 1

/-- Python/pandas `min` over a nonempty list. -/
def listMin : List ℚ → ℚ
  | [] => 0
  | x :: xs => xs.foldl min x

/-- First index of the minimum — `idxmin` (line 68). -/
def argminIdx : List ℚ → ℕ
  | [] => 0
  | [_] => 0
  | x :: y :: rest => if x ≤ listMin (y :: rest) then 0 else argminIdx (y :: rest) + 1

/-- A row of the returned `hourly_profile` records (line 77): hour,
load, and the `load_pct` column added at line 65. -/
structure ProfileRow where
  hour_of_day : ℕ
  load : ℚ
  load_pct : ℚ
deriving DecidableEq

/-- The dict returned by `analyze_load_profile` (lines 76-81).  The
source's last key is named `peak_to_avg_ratio`; it is the rounded max
load over mean load. -/
structure LoadProfileResult where
  hourly_profile : List ProfileRow
  peak_hour : ℕ
  off_peak_hour : ℕ
  peak_to_avg : ℚ
deriving DecidableEq

/-- `analyze_load_profile` (lines 41-81).  When the hour column is
missing the source prints a warning and RETURNS None (line 47-49) —
modelled by `none`; no exception is raised.  With the hour column
present but zero rows, `idxmax` on the empty frame raises ValueError —
also modelled by `none` (that branch is distinguished in the theorems
by the `rows ≠ []` hypothesis). -/
def analyze_load_profile (t : UsageTable) : Option LoadProfileResult :=
  if t.hasHourCol = false then none
  else
    match hourlyProfile t with
    | [] => none
    | p :: ps =>
      let hours := ((p :: ps).map Prod.fst : List ℕ)
      let loads := ((p :: ps).map Prod.snd : List ℚ)
      let total := loads.sum
      some
        { hourly_profile :=
            (p :: ps).map (fun q => ⟨q.1, q.2, round2 (q.2 / total * 100)⟩),
          peak_hour := hours.getD (argmaxIdx loads) 0,
          off_peak_hour := hours.getD (argminIdx loads) 0,
          peak_to_avg := round2 (listMax loads / meanQ loads) }

/-! ### K-selection in run_kmeans (src/src/models/clustering.py, lines 72-90) -/

/-- `K_range = range(2, min(12, len(X)))` (line 75). -/
def candidateKs (n : ℕ) : List ℕ := List.range' 2 (min 12 n - 2)

/-- The candidate range the spec describes: 2 up to and including
min(12, N−1).  Stated from the spec's words, for comparison with the
source's `candidateKs`. -/
def specCandidateKs (n : ℕ) : List ℕ := List.range' 2 (min 12 (n - 1) - 1)

/-- `best_k = list(K_range)[np.argmax(silhouettes)]` (lines 77-84): the
KMeans fit and `silhouette_score` are library calls, modelled as an
oracle `sil` giving each candidate count its score; `np.argmax` takes
the first maximising index. -/
def best_k (sil : ℕ → ℚ) (n : ℕ) : ℕ :=
  (candidateKs n).getD (argmaxIdx ((candidateKs n).map sil)) 0

/-! ### Basic haversine facts -/

theorem haversineKm_self (p : GeoPoint) : haversineKm p p = 0 := by
  simp [haversineKm]

theorem haversineKm_nonneg (p q : GeoPoint) : 0 ≤ haversineKm p q :=
  mul_nonneg (by norm_num) (Real.arcsin_nonneg.mpr (Real.sqrt_nonneg _))

/-- A station at the exact query coordinates is counted for any
nonnegative radius. -/
theorem countWithin_self_mem (r : ℝ) (hr : 0 ≤ r) (d : DemandPoint)
    (rest : List GeoPoint) : countWithin r d.pos (d.pos :: rest) ≠ 0 := by
  have h0 : haversineKm d.pos d.pos ≤ r := by rw [haversineKm_self]; exact hr
  simp only [countWithin, if_pos h0]
  omega

/-- A negative radius excludes every station (haversine distance is
nonnegative). -/
theorem countWithin_neg_radius (r : ℝ) (hr : r < 0) (q : GeoPoint) :
    ∀ l : List GeoPoint, countWithin r q l = 0 := by
  intro l
  induction l with
  | nil => simp [countWithin]
  | cons s rest ih =>
    have hnot : ¬ haversineKm s q ≤ r := by
      intro hle
      exact absurd (lt_of_le_of_lt hle hr) (not_lt.mpr (haversineKm_nonneg s q))
    simp [countWithin, if_neg hnot, ih]

/-! ### `gapFilter` structure lemmas -/

theorem gapFilter_sublist (r : ℝ) (stations : List GeoPoint) :
    ∀ demand : List DemandPoint, (gapFilter r stations demand).Sublist demand := by
  intro demand
  induction demand with
  | nil => simp [gapFilter]
  | cons d rest ih =>
    by_cases h : countWithin r d.pos stations = 0
    · simpa [gapFilter, if_pos h] using ih.cons₂ d
    · simpa [gapFilter, if_neg h] using ih.cons d

theorem gapFilter_count_zero (r : ℝ) (stations : List GeoPoint) :
    ∀ demand : List DemandPoint, ∀ d ∈ gapFilter r stations demand,
      countWithin r d.pos stations = 0 := by
  intro demand
  induction demand with
  | nil => simp [gapFilter]
  | cons a rest ih =>
    intro d hd
    by_cases h : countWithin r a.pos stations = 0
    · rw [gapFilter, if_pos h] at hd
      rcases List.mem_cons.mp hd with rfl | hmem
      · exact h
      · exact ih d hmem
    · rw [gapFilter, if_neg h] at hd
      exact ih d hd

theorem gapFilter_mem_of_count_zero (r : ℝ) (stations : List GeoPoint) :
    ∀ demand : List DemandPoint, ∀ d ∈ demand,
      countWithin r d.pos stations = 0 → d ∈ gapFilter r stations demand := by
  intro demand
  induction demand with
  | nil => simp
  | cons a rest ih =>
    intro d hd hcount
    rcases List.mem_cons.mp hd with rfl | hmem
    · rw [gapFilter, if_pos hcount]; exact List.mem_cons_self _ _
    · by_cases h : countWithin r a.pos stations = 0
      · rw [gapFilter, if_pos h]; exact List.mem_cons_of_mem _ (ih d hmem hcount)
      · rw [gapFilter, if_neg h]; exact ih d hmem hcount

theorem gapFilter_all_of_neg_radius (r : ℝ) (hr : r < 0)
    (stations : List GeoPoint) (demand : List DemandPoint) :
    gapFilter r stations demand = demand := by
  induction demand with
  | nil => simp [gapFilter]
  | cons d rest ih =>
    rw [gapFilter, if_pos (countWithin_neg_radius r hr d.pos stations), ih]

/-- The two Scenario A cities are more than 5 km apart.  (They are about
1750 km apart; the proof needs only a crude lower bound, via
`arcsin (sqrt E) ≥ arcsin (sin a) = a` for the latitude half-angle `a`.) -/
theorem five_lt_haversine_delhi_blr :
    5 < haversineKm delhiStation blrDemand.pos := by
  have hπ3 : (3:ℝ) < Real.pi := Real.pi_gt_three
  have hπ4 : Real.pi ≤ 4 := Real.pi_le_four
  simp only [haversineKm, delhiStation, blrDemand, DemandPoint.pos]
  push_cast
  rw [show ((1297:ℝ)/100 - 287/10) * Real.pi / 180 / 2
        = -(1573 * Real.pi / 36000) by ring]
  rw [Real.sin_neg, neg_sq]
  set a : ℝ := 1573 * Real.pi / 36000 with hadef
  have ha0 : 0 ≤ a := by rw [hadef]; nlinarith
  have haπ : a ≤ Real.pi / 2 := by rw [hadef]; nlinarith
  have hsa0 : 0 ≤ Real.sin a :=
    Real.sin_nonneg_of_nonneg_of_le_pi ha0 (by nlinarith)
  have hc1 : 0 ≤ Real.cos ((287:ℝ)/10 * Real.pi / 180) :=
    Real.cos_nonneg_of_mem_Icc (Set.mem_Icc.mpr ⟨by nlinarith, by nlinarith⟩)
  have hc2 : 0 ≤ Real.cos ((1297:ℝ)/100 * Real.pi / 180) :=
    Real.cos_nonneg_of_mem_Icc (Set.mem_Icc.mpr ⟨by nlinarith, by nlinarith⟩)
  have hextra : 0 ≤ Real.cos ((287:ℝ)/10 * Real.pi / 180) *
      Real.cos ((1297:ℝ)/100 * Real.pi / 180) *
      Real.sin (((7759:ℝ)/100 - 771/10) * Real.pi / 180 / 2) ^ 2 :=
    mul_nonneg (mul_nonneg hc1 hc2) (sq_nonneg _)
  have h1 : Real.sin a ≤ Real.sqrt (Real.sin a ^ 2 +
      Real.cos ((287:ℝ)/10 * Real.pi / 180) *
      Real.cos ((1297:ℝ)/100 * Real.pi / 180) *
      Real.sin (((7759:ℝ)/100 - 771/10) * Real.pi / 180 / 2) ^ 2) := by
    calc Real.sin a = Real.sqrt (Real.sin a ^ 2) := (Real.sqrt_sq hsa0).symm
      _ ≤ _ := Real.sqrt_le_sqrt (by linarith)
  have h2 : a ≤ Real.arcsin (Real.sqrt (Real.sin a ^ 2 +
      Real.cos ((287:ℝ)/10 * Real.pi / 180) *
      Real.cos ((1297:ℝ)/100 * Real.pi / 180) *
      Real.sin (((7759:ℝ)/100 - 771/10) * Real.pi / 180 / 2) ^ 2)) := by
    calc a = Real.arcsin (Real.sin a) :=
          (Real.arcsin_sin (by nlinarith) haπ).symm
      _ ≤ _ := Real.monotone_arcsin h1
  nlinarith [h2]

theorem delhiDemand_pos_eq : delhiDemand.pos = delhiStation := rfl

/-- C1 (code_bug evidence + the filter property).  First conjunct: with an
empty station table the call does not return the demand table — the
BallTree constructor raises, modelled as `none`.  Second conjunct: with
an empty demand table the call raises too (the same sample-count check
inside `query_radius`), again `none`.  Third conjunct: with both tables
nonempty the output is exactly the subsequence of demand points whose
haversine station count within the radius is zero. -/
theorem find_gaps_empty_crash_and_filter :
    (∀ (st : ClustererState) (demand : List DemandPoint),
        find_gaps st [] demand = none) ∧
    (∀ (st : ClustererState) (stations : List GeoPoint),
        find_gaps st stations [] = none) ∧
    (∀ (st : ClustererState) (stations : List GeoPoint) (demand : List DemandPoint),
        stations ≠ [] → demand ≠ [] →
        ∃ gaps st2, find_gaps st stations demand = some (gaps, st2) ∧
          gaps.Sublist demand ∧
          (∀ d ∈ gaps, countWithin (st.coverage_radius_km : ℝ) d.pos stations = 0) ∧
          (∀ d ∈ demand, d ∉ gaps →
            1 ≤ countWithin (st.coverage_radius_km : ℝ) d.pos stations)) := by
  refine ⟨?_, ?_, ?_⟩
  · intro st demand
    simp [find_gaps]
  · intro st stations
    simp [find_gaps]
  · intro st stations demand hne hdne
    have heq : find_gaps st stations demand
        = some (gapFilter (st.coverage_radius_km : ℝ) stations demand,
            { st with gap_points := some (gapFilter (st.coverage_radius_km : ℝ) stations demand) }) := by
      simp [find_gaps, hne, hdne]
    refine ⟨_, _, heq, gapFilter_sublist _ _ _,
      gapFilter_count_zero _ _ _, ?_⟩
    intro d hd hnot
    by_contra h
    push_neg at h
    exact hnot (gapFilter_mem_of_count_zero _ _ _ d hd (by omega))

/-- Witness for `find_gaps_empty_crash_and_filter`: the nonempty-tables
part applied to Scenario A's tables. -/
theorem find_gaps_empty_crash_and_filter_witness :
    ∃ gaps st2,
      find_gaps ⟨5, 5, none, 5⟩ [delhiStation] [delhiDemand, blrDemand]
          = some (gaps, st2) ∧
        gaps.Sublist [delhiDemand, blrDemand] ∧
        (∀ d ∈ gaps, countWithin ((5:ℚ):ℝ) d.pos [delhiStation] = 0) ∧
        (∀ d ∈ [delhiDemand, blrDemand], d ∉ gaps →
          1 ≤ countWithin ((5:ℚ):ℝ) d.pos [delhiStation]) :=
  find_gaps_empty_crash_and_filter.2.2 ⟨5, 5, none, 5⟩ [delhiStation]
    [delhiDemand, blrDemand] (by simp) (by simp)

/-- C7 counterexample: with `coverage_radius_km = 0` the call neither
raises nor is rejected — it returns normally; the demand point that does
not share the station's exact coordinates is returned as a gap. -/
theorem radius_zero_no_error_cex :
    find_gaps ⟨5, 0, none, 5⟩ [delhiStation] [delhiDemand, blrDemand]
      = some ([blrDemand], ⟨5, 0, some [blrDemand], 5⟩) := by
  have h1 : haversineKm delhiStation delhiDemand.pos ≤ (0:ℝ) := by
    rw [delhiDemand_pos_eq, haversineKm_self]
  have h2 : ¬ haversineKm delhiStation blrDemand.pos ≤ (0:ℝ) := by
    have := five_lt_haversine_delhi_blr
    linarith
  simp [find_gaps, gapFilter, countWithin, h1, h2]

/-- C7 amended: a nonpositive radius is silently accepted — on nonempty
station and demand tables the call returns normally for any radius (no
radius validation exists in the code; the only failure modes are the
empty-table sample-count errors, which are unrelated to the radius), and
a strictly negative radius makes every demand point a gap. -/
theorem radius_nonpositive_amended :
    ∀ (st : ClustererState) (stations : List GeoPoint) (demand : List DemandPoint),
      stations ≠ [] → demand ≠ [] → st.coverage_radius_km ≤ 0 →
      (∃ st2, find_gaps st stations demand
          = some (gapFilter (st.coverage_radius_km : ℝ) stations demand, st2)) ∧
      (st.coverage_radius_km < 0 →
        gapFilter (st.coverage_radius_km : ℝ) stations demand = demand) := by
  intro st stations demand hne hdne _hr
  have heq : find_gaps st stations demand
      = some (gapFilter (st.coverage_radius_km : ℝ) stations demand,
          { st with gap_points := some (gapFilter (st.coverage_radius_km : ℝ) stations demand) }) := by
    simp [find_gaps, hne, hdne]
  exact ⟨⟨_, heq⟩, fun hneg =>
    gapFilter_all_of_neg_radius _ (by exact_mod_cast hneg) stations demand⟩

/-- Witness for `radius_nonpositive_amended` at radius −1. -/
theorem radius_nonpositive_amended_witness :
    ∃ st2, find_gaps ⟨5, -1, none, 5⟩ [delhiStation] [blrDemand]
      = some ([blrDemand], st2) := by
  have h := radius_nonpositive_amended ⟨5, -1, none, 5⟩ [delhiStation] [blrDemand]
      (by simp) (by simp) (by norm_num)
  obtain ⟨⟨st2, heq⟩, hall⟩ := h
  refine ⟨st2, ?_⟩
  rw [heq, hall (by norm_num)]

/-- C10 (confirmed): before any `find_gaps` call (`gap_points` absent)
or after one that found no gaps, `recommend_locations` returns the empty
frame with the `latitude`/`longitude`/`priority_score` columns (the
`RecSite` row type) and raises nothing; the state is untouched. -/
theorem recommend_empty_state_ok :
    ∀ (st : ClustererState) (labels : List ℕ),
      st.gap_points = none ∨ st.gap_points = some [] →
      recommend_locations st labels = ([], st) := by
  intro st labels h
  rcases h with h | h <;> simp [recommend_locations, h]

/-- Witness for `recommend_empty_state_ok` on both empty-state shapes. -/
theorem recommend_empty_state_ok_witness :
    recommend_locations ⟨5, 5, none, 5⟩ [] = ([], ⟨5, 5, none, 5⟩) ∧
    recommend_locations ⟨5, 5, some [], 5⟩ [] = ([], ⟨5, 5, some [], 5⟩) :=
  ⟨recommend_empty_state_ok ⟨5, 5, none, 5⟩ [] (Or.inl rfl),
   recommend_empty_state_ok ⟨5, 5, some [], 5⟩ [] (Or.inr rfl)⟩

/-- C9 counterexample: the operations are not pure functions of their
per-call arguments.  `recommend_locations` takes no data arguments at
all — with identical argument lists its result differs depending on the
`gap_points` left behind by the previous `find_gaps` call — and
`find_gaps` writes its result into the component state. -/
theorem statefulness_cex :
    (recommend_locations ⟨1, 5, some [blrDemand], 1⟩ [0]).1
        ≠ (recommend_locations ⟨1, 5, none, 1⟩ [0]).1 ∧
    find_gaps ⟨1, 5, none, 1⟩ [delhiStation] [delhiDemand]
        = some ([], ⟨1, 5, some [], 1⟩) := by
  constructor
  · decide
  · have h1 : haversineKm delhiStation delhiDemand.pos ≤ (5:ℝ) := by
      rw [delhiDemand_pos_eq, haversineKm_self]
      norm_num
    simp [find_gaps, gapFilter, countWithin, h1]

/-- C9 amended: both operations are deterministic in (state, arguments)
and leave their input tables untouched (inputs are immutable values
here), but state is retained between calls: whenever `find_gaps` returns
(both tables nonempty — an empty table raises before line 57 and writes
nothing), it stores its result in `gap_points`; `recommend_locations`
reads exactly `gap_points` and `n_new_stations` from the state. -/
theorem state_dependence_amended :
    (∀ (st : ClustererState) (stations : List GeoPoint) (demand : List DemandPoint),
      stations ≠ [] → demand ≠ [] →
      ∃ gaps, find_gaps st stations demand
          = some (gaps, { st with gap_points := some gaps })) ∧
    (∀ (st st2 : ClustererState) (labels : List ℕ),
      st.gap_points = st2.gap_points → st.n_new_stations = st2.n_new_stations →
      (recommend_locations st labels).1 = (recommend_locations st2 labels).1) := by
  constructor
  · intro st stations demand hne hdne
    exact ⟨gapFilter (st.coverage_radius_km : ℝ) stations demand,
      by simp [find_gaps, hne, hdne]⟩
  · intro st st2 labels h1 h2
    rcases hgp : st2.gap_points with _ | gaps
    · have hgp1 : st.gap_points = none := h1.trans hgp
      simp [recommend_locations, hgp, hgp1]
    · have hgp1 : st.gap_points = some gaps := h1.trans hgp
      by_cases hg : gaps = []
      · simp [recommend_locations, hgp, hgp1, hg]
      · simp only [recommend_locations, hgp, hgp1, hg, h2]
        by_cases hk : min st2.n_new_stations gaps.length = 0
        · simp [hk]
        · simp [hk]

/-- Witness for `state_dependence_amended`: a concrete `find_gaps` call
whose successor state records the result, and two states agreeing on
`gap_points`/`n_new_stations` but differing elsewhere on which
`recommend_locations` agrees. -/
theorem state_dependence_amended_witness :
    (∃ gaps, find_gaps ⟨1, 5, none, 1⟩ [delhiStation] [delhiDemand]
        = some (gaps, ⟨1, 5, some gaps, 1⟩)) ∧
    (recommend_locations ⟨2, 5, some [blrDemand], 7⟩ [0]).1
      = (recommend_locations ⟨2, 3, some [blrDemand], 9⟩ [0]).1 :=
  ⟨state_dependence_amended.1 ⟨1, 5, none, 1⟩ [delhiStation] [delhiDemand]
      (by simp) (by simp),
   state_dependence_amended.2 ⟨2, 5, some [blrDemand], 7⟩
      ⟨2, 3, some [blrDemand], 9⟩ [0] rfl rfl⟩

/-! ### Sorting lemmas for the recommendations frame -/

theorem foldl_max_le_of (b : ℚ) :
    ∀ (xs : List ℚ) (acc : ℚ), acc ≤ b → (∀ x ∈ xs, x ≤ b) →
      xs.foldl max acc ≤ b := by
  intro xs
  induction xs with
  | nil => intro acc h _; simpa using h
  | cons x xs ih =>
    intro acc hacc hall
    rw [List.foldl_cons]
    exact ih (max acc x) (max_le hacc (hall x (List.mem_cons_self _ _)))
      (fun y hy => hall y (List.mem_cons_of_mem _ hy))

theorem le_foldl_max :
    ∀ (xs : List ℚ) (acc : ℚ),
      acc ≤ xs.foldl max acc ∧ ∀ x ∈ xs, x ≤ xs.foldl max acc := by
  intro xs
  induction xs with
  | nil => intro acc; exact ⟨le_refl _, by simp⟩
  | cons x xs ih =>
    intro acc
    rw [List.foldl_cons]
    obtain ⟨h1, h2⟩ := ih (max acc x)
    refine ⟨le_trans (le_max_left _ _) h1, ?_⟩
    intro y hy
    rcases List.mem_cons.mp hy with rfl | hy2
    · exact le_trans (le_max_right acc y) h1
    · exact h2 y hy2

theorem le_listMax (l : List ℚ) : ∀ x ∈ l, x ≤ listMax l := by
  cases l with
  | nil => simp
  | cons x xs =>
    intro y hy
    simp only [listMax]
    rcases List.mem_cons.mp hy with rfl | hy2
    · exact (le_foldl_max xs y).1
    · exact (le_foldl_max xs x).2 y hy2

theorem listMax_le (l : List ℚ) (b : ℚ) (h0 : 0 ≤ b)
    (hall : ∀ x ∈ l, x ≤ b) : listMax l ≤ b := by
  cases l with
  | nil => simpa [listMax] using h0
  | cons x xs =>
    simp only [listMax]
    exact foldl_max_le_of b xs x (hall x (List.mem_cons_self _ _))
      (fun y hy => hall y (List.mem_cons_of_mem _ hy))

theorem meanQ_le_listMax (l : List ℚ) (hne : l ≠ []) : meanQ l ≤ listMax l := by
  have hlen : 0 < (l.length : ℚ) := by
    exact_mod_cast List.length_pos.mpr hne
  have hsum : l.sum ≤ (l.length : ℚ) * listMax l := by
    have := List.sum_le_card_nsmul l (listMax l) (le_listMax l)
    simpa [nsmul_eq_mul] using this
  rw [meanQ, div_le_iff₀ hlen]
  linarith [hsum, mul_comm ((l.length : ℚ)) (listMax l)]

/-! ### Heuristic pass invariants -/

theorem shavePeaks_sum (avg s : ℚ) :
    ∀ l : List ℚ,
      (shavePeaks avg s l).1.sum + (shavePeaks avg s l).2 = l.sum := by
  intro l
  induction l with
  | nil => simp [shavePeaks]
  | cons x xs ih =>
    simp only [shavePeaks]
    by_cases hc : x > avg * (12/10)
    · simp only [if_pos hc, List.sum_cons]
      linarith [ih]
    · simp only [if_neg hc, List.sum_cons]
      linarith [ih]

theorem fillValleys_sum (avg : ℚ) :
    ∀ (l : List ℚ) (e : ℚ),
      (fillValleys avg l e).1.sum + (fillValleys avg l e).2 = l.sum + e := by
  intro l
  induction l with
  | nil => intro e; simp [fillValleys]
  | cons x xs ih =>
    intro e
    simp only [fillValleys]
    by_cases hc : x < avg * (8/10) ∧ e > 0
    · simp only [if_pos hc, List.sum_cons]
      have := ih (e - min e (avg - x))
      linarith
    · simp only [if_neg hc, List.sum_cons]
      have := ih e
      linarith

theorem shavePeaks_le (avg s M : ℚ) (hs0 : 0 ≤ s) :
    ∀ l : List ℚ, (∀ x ∈ l, 0 ≤ x) → (∀ x ∈ l, x ≤ M) →
      ∀ y ∈ (shavePeaks avg s l).1, y ≤ M := by
  intro l
  induction l with
  | nil => intro _ _ y hy; simp [shavePeaks] at hy
  | cons x xs ih =>
    intro h0 hM y hy
    simp only [shavePeaks] at hy
    by_cases hc : x > avg * (12/10)
    · rw [if_pos hc] at hy
      rcases List.mem_cons.mp hy with rfl | hy2
      · have hx0 : 0 ≤ x := h0 x (List.mem_cons_self _ _)
        have hxM : x ≤ M := hM x (List.mem_cons_self _ _)
        have := mul_nonneg hx0 hs0
        linarith
      · exact ih (fun z hz => h0 z (List.mem_cons_of_mem _ hz))
          (fun z hz => hM z (List.mem_cons_of_mem _ hz)) y hy2
    · rw [if_neg hc] at hy
      rcases List.mem_cons.mp hy with rfl | hy2
      · exact hM y (List.mem_cons_self _ _)
      · exact ih (fun z hz => h0 z (List.mem_cons_of_mem _ hz))
          (fun z hz => hM z (List.mem_cons_of_mem _ hz)) y hy2

theorem fillValleys_le (avg M : ℚ) (havg : avg ≤ M) :
    ∀ (l : List ℚ) (e : ℚ), (∀ x ∈ l, x ≤ M) →
      ∀ y ∈ (fillValleys avg l e).1, y ≤ M := by
  intro l
  induction l with
  | nil => intro e _ y hy; simp [fillValleys] at hy
  | cons x xs ih =>
    intro e hM y hy
    simp only [fillValleys] at hy
    by_cases hc : x < avg * (8/10) ∧ e > 0
    · rw [if_pos hc] at hy
      rcases List.mem_cons.mp hy with rfl | hy2
      · have := min_le_right e (avg - x)
        linarith
      · exact ih (e - min e (avg - x))
          (fun z hz => hM z (List.mem_cons_of_mem _ hz)) y hy2
    · rw [if_neg hc] at hy
      rcases List.mem_cons.mp hy with rfl | hy2
      · exact hM y (List.mem_cons_self _ _)
      · exact ih e (fun z hz => hM z (List.mem_cons_of_mem _ hz)) y hy2

theorem forall₂_mem_right {R : ℚ → ℚ → Prop} :
    ∀ {l1 l2 : List ℚ}, List.Forall₂ R l1 l2 → ∀ b ∈ l2, ∃ a ∈ l1, R a b := by
  intro l1 l2 h
  induction h with
  | nil => simp
  | cons hr ht ih =>
    intro b hb
    rcases List.mem_cons.mp hb with rfl | hb2
    · exact ⟨_, List.mem_cons_self _ _, hr⟩
    · obtain ⟨a, ha, hab⟩ := ih b hb2
      exact ⟨a, List.mem_cons_of_mem _ ha, hab⟩

/-- C2 counterexample: a 24-hour profile (load 30 at hour 0, load 10
elsewhere) where Pass 2 finds no valley below 0.8x the mean, so the
shaved 9 units are dropped: the optimized total is 251 while the
original total is 260, and the result carries no residual field. -/
theorem heuristic_drops_excess_cex :
    ((_heuristic_optimization spikedProfile (3/10)).optimized_load.sum = 251) ∧
    ((spikedProfile.map (fun b => b.load)).sum = 260) ∧ ((251:ℚ) ≠ 260) := by
  refine ⟨?_, by norm_num [spikedProfile], by norm_num⟩
  norm_num [_heuristic_optimization, spikedProfile, meanQ, shavePeaks,
    fillValleys]

/-- C2 amended: the LP path conserves energy exactly — its equality
constraint makes every feasible (hence every optimal) assignment sum to
the original total.  The heuristic path conserves energy only up to the
unabsorbed pool: optimized total + leftover = original total, so the sum
is conserved exactly when the leftover is zero; the leftover is a local
variable the source drops, and the result dict carries no residual
field. -/
theorem energy_conservation_amended :
    (∀ (original_load : List ℚ) (shift_pct : ℚ) (x : List ℚ) (peak : ℚ),
      lpFeasible original_load shift_pct x peak →
      x.sum = original_load.sum) ∧
    (∀ (profile : List HourlyBin) (s : ℚ),
      (_heuristic_optimization profile s).optimized_load.sum
          + heuristicLeftover profile s
        = (profile.map (fun b => b.load)).sum) ∧
    (∀ (profile : List HourlyBin) (s : ℚ),
      heuristicLeftover profile s = 0 →
      (_heuristic_optimization profile s).optimized_load.sum
        = (profile.map (fun b => b.load)).sum) := by
  have hsum : ∀ (profile : List HourlyBin) (s : ℚ),
      (_heuristic_optimization profile s).optimized_load.sum
          + heuristicLeftover profile s
        = (profile.map (fun b => b.load)).sum := by
    intro profile s
    simp only [_heuristic_optimization, heuristicLeftover]
    rw [fillValleys_sum]
    exact shavePeaks_sum _ _ _
  refine ⟨fun o sp x p h => h.2.2, hsum, ?_⟩
  intro profile s h0
  have := hsum profile s
  rw [h0, add_zero] at this
  exact this

/-- Witness for `energy_conservation_amended`: a concrete feasible LP
point, and the heuristic identity on a 2-hour profile. -/
theorem energy_conservation_amended_witness :
    (([1, 3] : List ℚ).sum = ([2, 2] : List ℚ).sum) ∧
    ((_heuristic_optimization [⟨0, 4⟩, ⟨1, 0⟩] (1/2)).optimized_load.sum
        + heuristicLeftover [⟨0, 4⟩, ⟨1, 0⟩] (1/2)
      = ([(⟨0, 4⟩ : HourlyBin), ⟨1, 0⟩].map (fun b => b.load)).sum) :=
  ⟨energy_conservation_amended.1 [2, 2] (1/2) [1, 3] 3
      ⟨by norm_num, by norm_num [List.forall₂_cons], by norm_num⟩,
   energy_conservation_amended.2.1 [⟨0, 4⟩, ⟨1, 0⟩] (1/2)⟩

/-- C3 (confirmed, strengthened: positivity of the original peak is not
even needed).  Heuristic path: shaved hours only decrease and filled
hours never exceed the mean, which never exceeds the max.  LP path: the
original profile is feasible with peak = its own max, so the optimal
peak — an upper bound of every optimized hour — is at most the original
peak. -/
theorem peak_nonincrease :
    (∀ (profile : List HourlyBin) (s : ℚ),
      profile ≠ [] → (∀ b ∈ profile, 0 ≤ b.load) → 0 ≤ s → s ≤ 1 →
      listMax (_heuristic_optimization profile s).optimized_load
        ≤ listMax (profile.map (fun b => b.load))) ∧
    (∀ (original_load : List ℚ) (s : ℚ) (x : List ℚ) (peak : ℚ),
      original_load ≠ [] → (∀ o ∈ original_load, 0 ≤ o) → 0 ≤ s → s ≤ 1 →
      lpOptimal original_load s x peak →
      listMax x ≤ listMax original_load) := by
  constructor
  · intro profile s hne h0 hs0 _hs1
    set orig := profile.map (fun b => b.load) with horig
    have horigne : orig ≠ [] := by
      rw [horig]
      simpa [List.map_eq_nil_iff] using hne
    have h0' : ∀ x ∈ orig, 0 ≤ x := by
      intro x hx
      rw [horig] at hx
      obtain ⟨b, hb, rfl⟩ := List.mem_map.mp hx
      exact h0 b hb
    have hM0 : 0 ≤ listMax orig := by
      obtain ⟨b, hb⟩ := List.exists_mem_of_ne_nil orig horigne
      exact le_trans (h0' b hb) (le_listMax orig b hb)
    have havg : meanQ orig ≤ listMax orig := meanQ_le_listMax orig horigne
    have hshave := shavePeaks_le (meanQ orig) s (listMax orig) hs0 orig h0'
      (le_listMax orig)
    have hfill := fillValleys_le (meanQ orig) (listMax orig) havg
      (shavePeaks (meanQ orig) s orig).1 (shavePeaks (meanQ orig) s orig).2
      hshave
    have hbound := listMax_le _ _ hM0 hfill
    simp only [_heuristic_optimization]
    rw [← horig]
    exact hbound
  · intro orig s x peak hne h0 hs0 hs1 hopt
    obtain ⟨⟨hpk0, hall, _hsumeq⟩, hmin⟩ := hopt
    have hxpeak : ∀ xi ∈ x, xi ≤ peak := by
      intro xi hxi
      obtain ⟨a, _, _, hle, _⟩ := forall₂_mem_right hall xi hxi
      exact hle
    have h1 : listMax x ≤ peak := listMax_le x peak hpk0 hxpeak
    have hfeas : lpFeasible orig s orig (listMax orig) := by
      refine ⟨?_, ?_, rfl⟩
      · obtain ⟨b, hb⟩ := List.exists_mem_of_ne_nil orig hne
        exact le_trans (h0 b hb) (le_listMax orig b hb)
      · rw [List.forall₂_same]
        intro o ho
        have ho0 := h0 o ho
        refine ⟨ho0, le_listMax orig o ho, ?_⟩
        have hmul : o * (1 - s) ≤ o * 1 :=
          mul_le_mul_of_nonneg_left (by linarith) ho0
        simpa using hmul
    exact le_trans h1 (hmin orig (listMax orig) hfeas)

/-- Witness for `peak_nonincrease`: the heuristic part on a 2-hour
profile, and the LP part at a concrete optimal point. -/
theorem peak_nonincrease_witness :
    (listMax (_heuristic_optimization [⟨0, 4⟩, ⟨1, 0⟩] (1/2)).optimized_load
        ≤ listMax ([(⟨0, 4⟩ : HourlyBin), ⟨1, 0⟩].map (fun b => b.load))) ∧
    (listMax [1, 1] ≤ listMax [2, 0]) := by
  constructor
  · exact peak_nonincrease.1 [⟨0, 4⟩, ⟨1, 0⟩] (1/2) (by simp)
      (by decide) (by norm_num) (by norm_num)
  · apply peak_nonincrease.2 [2, 0] 1 [1, 1] 1 (by simp) (by decide)
      (by norm_num) (by norm_num)
    constructor
    · exact ⟨by norm_num, by norm_num [List.forall₂_cons], by norm_num⟩
    · intro y q hfeas
      obtain ⟨hq0, hall, hsum⟩ := hfeas
      cases hall with
      | cons h1 htail =>
        cases htail with
        | cons h2 hnil =>
          cases hnil
          obtain ⟨-, hy0, -⟩ := h1
          obtain ⟨-, hy1, -⟩ := h2
          simp only [List.sum_cons, List.sum_nil] at hsum
          norm_num at hsum
          linarith

/-! ### argmax / argmin lemmas -/

theorem foldl_max_max (a b : ℚ) :
    ∀ l : List ℚ, l.foldl max (max a b) = max a (l.foldl max b) := by
  intro l
  induction l generalizing b with
  | nil => simp
  | cons c l ih =>
    rw [List.foldl_cons, List.foldl_cons, max_assoc]
    exact ih (max b c)

theorem listMax_cons₂ (x y : ℚ) (rest : List ℚ) :
    listMax (x :: y :: rest) = max x (listMax (y :: rest)) := by
  simp only [listMax, List.foldl_cons]
  exact foldl_max_max x y rest

theorem argmax_spec :
    ∀ l : List ℚ, l ≠ [] →
      argmaxIdx l < l.length ∧ l.getD (argmaxIdx l) 0 = listMax l := by
  intro l
  induction l with
  | nil => intro h; exact absurd rfl h
  | cons x xs ih =>
    intro _
    cases xs with
    | nil => simp [argmaxIdx, listMax]
    | cons y rest =>
      by_cases hc : listMax (y :: rest) ≤ x
      · refine ⟨by simp [argmaxIdx, hc], ?_⟩
        simp only [argmaxIdx, if_pos hc, List.getD_cons_zero]
        rw [listMax_cons₂]
        exact (max_eq_left hc).symm
      · obtain ⟨ih1, ih2⟩ := ih (by simp)
        refine ⟨?_, ?_⟩
        · simp only [argmaxIdx, if_neg hc, List.length_cons]
          simp only [List.length_cons] at ih1
          omega
        · simp only [argmaxIdx, if_neg hc, List.getD_cons_succ]
          rw [ih2, listMax_cons₂]
          exact (max_eq_right (le_of_not_le hc)).symm

theorem foldl_min_min (a b : ℚ) :
    ∀ l : List ℚ, l.foldl min (min a b) = min a (l.foldl min b) := by
  intro l
  induction l generalizing b with
  | nil => simp
  | cons c l ih =>
    rw [List.foldl_cons, List.foldl_cons, min_assoc]
    exact ih (min b c)

theorem listMin_cons₂ (x y : ℚ) (rest : List ℚ) :
    listMin (x :: y :: rest) = min x (listMin (y :: rest)) := by
  simp only [listMin, List.foldl_cons]
  exact foldl_min_min x y rest

theorem foldl_min_le :
    ∀ (xs : List ℚ) (acc : ℚ),
      xs.foldl min acc ≤ acc ∧ ∀ x ∈ xs, xs.foldl min acc ≤ x := by
  intro xs
  induction xs with
  | nil => intro acc; exact ⟨le_refl _, by simp⟩
  | cons x xs ih =>
    intro acc
    rw [List.foldl_cons]
    obtain ⟨h1, h2⟩ := ih (min acc x)
    refine ⟨le_trans h1 (min_le_left _ _), ?_⟩
    intro y hy
    rcases List.mem_cons.mp hy with rfl | hy2
    · exact le_trans h1 (min_le_right acc y)
    · exact h2 y hy2

theorem listMin_le (l : List ℚ) : ∀ x ∈ l, listMin l ≤ x := by
  cases l with
  | nil => simp
  | cons x xs =>
    intro y hy
    simp only [listMin]
    rcases List.mem_cons.mp hy with rfl | hy2
    · exact (foldl_min_le xs y).1
    · exact (foldl_min_le xs x).2 y hy2

theorem argmin_spec :
    ∀ l : List ℚ, l ≠ [] →
      argminIdx l < l.length ∧ l.getD (argminIdx l) 0 = listMin l := by
  intro l
  induction l with
  | nil => intro h; exact absurd rfl h
  | cons x xs ih =>
    intro _
    cases xs with
    | nil => simp [argminIdx, listMin]
    | cons y rest =>
      by_cases hc : x ≤ listMin (y :: rest)
      · refine ⟨by simp [argminIdx, hc], ?_⟩
        simp only [argminIdx, if_pos hc, List.getD_cons_zero]
        rw [listMin_cons₂]
        exact (min_eq_left hc).symm
      · obtain ⟨ih1, ih2⟩ := ih (by simp)
        refine ⟨?_, ?_⟩
        · simp only [argminIdx, if_neg hc, List.length_cons]
          simp only [List.length_cons] at ih1
          omega
        · simp only [argminIdx, if_neg hc, List.getD_cons_succ]
          rw [ih2, listMin_cons₂]
          exact (min_eq_right (le_of_not_le hc)).symm

/-! ### groupby-key lemmas -/

theorem insHour_mem (h : ℕ) :
    ∀ (l : List ℕ) (y : ℕ), y ∈ insHour h l ↔ y = h ∨ y ∈ l := by
  intro l
  induction l with
  | nil => intro y; simp [insHour]
  | cons x xs ih =>
    intro y
    simp only [insHour]
    by_cases h1 : h < x
    · rw [if_pos h1]
      simp [List.mem_cons]
    · rw [if_neg h1]
      by_cases h2 : h = x
      · rw [if_pos h2]
        subst h2
        simp only [List.mem_cons]
        tauto
      · rw [if_neg h2]
        simp only [List.mem_cons, ih]
        tauto

theorem insHour_pairwise (h : ℕ) :
    ∀ l : List ℕ, l.Pairwise (· < ·) → (insHour h l).Pairwise (· < ·) := by
  intro l
  induction l with
  | nil => intro _; simp [insHour]
  | cons x xs ih =>
    intro hp
    rw [List.pairwise_cons] at hp
    obtain ⟨hx, hxs⟩ := hp
    simp only [insHour]
    by_cases h1 : h < x
    · rw [if_pos h1]
      refine List.Pairwise.cons ?_ (List.Pairwise.cons hx hxs)
      intro z hz
      rcases List.mem_cons.mp hz with rfl | hz2
      · exact h1
      · exact lt_trans h1 (hx z hz2)
    · rw [if_neg h1]
      by_cases h2 : h = x
      · rw [if_pos h2]
        exact List.Pairwise.cons hx hxs
      · rw [if_neg h2]
        have hxh : x < h := by omega
        refine List.Pairwise.cons ?_ (ih hxs)
        intro z hz
        rcases (insHour_mem h xs z).mp hz with rfl | hz2
        · exact hxh
        · exact hx z hz2

theorem presentHoursAux_pairwise :
    ∀ (rows : List UsageRow) (acc : List ℕ), acc.Pairwise (· < ·) →
      (rows.foldl (fun acc r => insHour r.hour_of_day acc) acc).Pairwise
        (· < ·) := by
  intro rows
  induction rows with
  | nil => intro acc h; simpa using h
  | cons r rs ih =>
    intro acc h
    rw [List.foldl_cons]
    exact ih _ (insHour_pairwise _ _ h)

theorem presentHoursAux_mem :
    ∀ (rows : List UsageRow) (acc : List ℕ) (y : ℕ),
      y ∈ rows.foldl (fun acc r => insHour r.hour_of_day acc) acc ↔
        y ∈ acc ∨ ∃ r ∈ rows, r.hour_of_day = y := by
  intro rows
  induction rows with
  | nil => intro acc y; simp
  | cons r rs ih =>
    intro acc y
    rw [List.foldl_cons, ih, insHour_mem]
    constructor
    · rintro ((rfl | h) | ⟨a, ha, rfl⟩)
      · exact Or.inr ⟨r, List.mem_cons_self _ _, rfl⟩
      · exact Or.inl h
      · exact Or.inr ⟨a, List.mem_cons_of_mem _ ha, rfl⟩
    · rintro (h | ⟨a, ha, rfl⟩)
      · exact Or.inl (Or.inr h)
      · rcases List.mem_cons.mp ha with rfl | ha2
        · exact Or.inl (Or.inl rfl)
        · exact Or.inr ⟨a, ha2, rfl⟩

theorem presentHours_pairwise (rows : List UsageRow) :
    (presentHours rows).Pairwise (· < ·) :=
  presentHoursAux_pairwise rows [] List.Pairwise.nil

theorem presentHours_mem (rows : List UsageRow) (y : ℕ) :
    y ∈ presentHours rows ↔ ∃ r ∈ rows, r.hour_of_day = y := by
  rw [presentHours, presentHoursAux_mem]
  simp

theorem hourlyProfile_ne_nil (t : UsageTable) (h : t.rows ≠ []) :
    hourlyProfile t ≠ [] := by
  obtain ⟨r, hr⟩ := List.exists_mem_of_ne_nil _ h
  have hmem : r.hour_of_day ∈ presentHours t.rows :=
    (presentHours_mem _ _).mpr ⟨r, hr, rfl⟩
  intro hnil
  have hp : presentHours t.rows = [] := List.map_eq_nil_iff.mp hnil
  rw [hp] at hmem
  exact absurd hmem (List.not_mem_nil _)

/-- C5 counterexample: an input with a single record at hour 5 yields an
hourly profile whose hour column is exactly `[5]` — one row, not a
24-hour sequence; hours absent from the input are absent from the
output, not zero-filled. -/
theorem analyze_missing_hours_cex :
    (analyze_load_profile ⟨true, true, [⟨5, 7⟩]⟩).map
        (fun r => r.hourly_profile.map (fun q => q.hour_of_day))
      = some [5] := by
  decide

/-- C5 amended: for every table with the hour column and at least one
row, the result covers exactly the distinct hours present in the input
(ascending, duplicates merged by summation — or by counting when no
energy column exists), NOT all 24 hours; peak_hour/off_peak_hour are an
argmax/argmin of the present hourly loads; the peak-to-average entry is
`round(max/mean, 2)` over the present hours. -/
theorem analyze_load_profile_amended :
    ∀ t : UsageTable, t.hasHourCol = true → t.rows ≠ [] →
      ∃ res, analyze_load_profile t = some res ∧
        res.hourly_profile.map (fun q => q.hour_of_day) = presentHours t.rows ∧
        (presentHours t.rows).Pairwise (· < ·) ∧
        (∀ h, h ∈ presentHours t.rows ↔ ∃ r ∈ t.rows, r.hour_of_day = h) ∧
        (∀ q ∈ res.hourly_profile, q.load = loadOf t q.hour_of_day) ∧
        (∃ q ∈ res.hourly_profile, q.hour_of_day = res.peak_hour ∧
          q.load = listMax ((hourlyProfile t).map Prod.snd)) ∧
        (∀ q ∈ res.hourly_profile,
          q.load ≤ listMax ((hourlyProfile t).map Prod.snd)) ∧
        (∃ q ∈ res.hourly_profile, q.hour_of_day = res.off_peak_hour ∧
          q.load = listMin ((hourlyProfile t).map Prod.snd)) ∧
        (∀ q ∈ res.hourly_profile,
          listMin ((hourlyProfile t).map Prod.snd) ≤ q.load) ∧
        res.peak_to_avg = round2 (listMax ((hourlyProfile t).map Prod.snd)
          / meanQ ((hourlyProfile t).map Prod.snd)) := by
  intro t hcol hrows
  have hne := hourlyProfile_ne_nil t hrows
  obtain ⟨p, ps, hpp⟩ : ∃ p ps, hourlyProfile t = p :: ps := by
    cases hprof : hourlyProfile t with
    | nil => exact absurd hprof hne
    | cons p ps => exact ⟨p, ps, rfl⟩
  have hres : analyze_load_profile t = some
      { hourly_profile := (p :: ps).map (fun q =>
          ⟨q.1, q.2, round2 (q.2 / ((p :: ps).map Prod.snd).sum * 100)⟩),
        peak_hour := ((p :: ps).map Prod.fst).getD
          (argmaxIdx ((p :: ps).map Prod.snd)) 0,
        off_peak_hour := ((p :: ps).map Prod.fst).getD
          (argminIdx ((p :: ps).map Prod.snd)) 0,
        peak_to_avg := round2 (listMax ((p :: ps).map Prod.snd)
          / meanQ ((p :: ps).map Prod.snd)) } := by
    simp [analyze_load_profile, hcol, hpp]
  have hpair : ∀ a ∈ hourlyProfile t, a.2 = loadOf t a.1 := by
    intro a ha
    rw [hourlyProfile] at ha
    obtain ⟨h, _, rfl⟩ := List.mem_map.mp ha
    rfl
  have hfst : (hourlyProfile t).map Prod.fst = presentHours t.rows := by
    rw [hourlyProfile, List.map_map]
    have hid : (Prod.fst ∘ fun h => (h, loadOf t h)) = @id ℕ := rfl
    rw [hid, List.map_id]
  obtain ⟨hmaxlt, hmaxval⟩ := argmax_spec ((p :: ps).map Prod.snd) (by simp)
  obtain ⟨hminlt, hminval⟩ := argmin_spec ((p :: ps).map Prod.snd) (by simp)
  have hmaxlt' : argmaxIdx ((p :: ps).map Prod.snd) < (p :: ps).length := by
    simpa using hmaxlt
  have hminlt' : argminIdx ((p :: ps).map Prod.snd) < (p :: ps).length := by
    simpa using hminlt
  refine ⟨_, hres, ?_, presentHours_pairwise _,
    fun h => presentHours_mem _ _, ?_, ?_, ?_, ?_, ?_, ?_⟩
  · rw [List.map_map, ← hfst, hpp]
    rfl
  · intro q hq
    obtain ⟨a, ha, rfl⟩ := List.mem_map.mp hq
    exact hpair a (hpp ▸ ha)
  · -- peak membership
    refine ⟨((p :: ps).map (fun q =>
        (⟨q.1, q.2, round2 (q.2 / ((p :: ps).map Prod.snd).sum * 100)⟩ :
          ProfileRow))).get
        ⟨argmaxIdx ((p :: ps).map Prod.snd), by simpa using hmaxlt'⟩,
      List.get_mem _ _ _, ?_, ?_⟩
    · simp only [List.get_eq_getElem, List.getElem_map]
      rw [List.getD_eq_getElem ((p :: ps).map Prod.fst) 0 (by simpa using hmaxlt')]
      exact (List.getElem_map _).symm
    · simp only [List.get_eq_getElem, List.getElem_map]
      rw [hpp, ← hmaxval,
        List.getD_eq_getElem ((p :: ps).map Prod.snd) 0 (by simpa using hmaxlt')]
      exact (List.getElem_map _).symm
  · intro q hq
    obtain ⟨a, ha, rfl⟩ := List.mem_map.mp hq
    rw [hpp]
    exact le_listMax _ _ (List.mem_map_of_mem Prod.snd ha)
  · -- off-peak membership
    refine ⟨((p :: ps).map (fun q =>
        (⟨q.1, q.2, round2 (q.2 / ((p :: ps).map Prod.snd).sum * 100)⟩ :
          ProfileRow))).get
        ⟨argminIdx ((p :: ps).map Prod.snd), by simpa using hminlt'⟩,
      List.get_mem _ _ _, ?_, ?_⟩
    · simp only [List.get_eq_getElem, List.getElem_map]
      rw [List.getD_eq_getElem ((p :: ps).map Prod.fst) 0 (by simpa using hminlt')]
      exact (List.getElem_map _).symm
    · simp only [List.get_eq_getElem, List.getElem_map]
      rw [hpp, ← hminval,
        List.getD_eq_getElem ((p :: ps).map Prod.snd) 0 (by simpa using hminlt')]
      exact (List.getElem_map _).symm
  · intro q hq
    obtain ⟨a, ha, rfl⟩ := List.mem_map.mp hq
    rw [hpp]
    exact listMin_le _ _ (List.mem_map_of_mem Prod.snd ha)
  · rw [hpp]

/-- Witness for `analyze_load_profile_amended` on a 3-row table with a
duplicated hour. -/
theorem analyze_load_profile_amended_witness :
    ∃ res, analyze_load_profile ⟨true, true, [⟨5, 7⟩, ⟨3, 2⟩, ⟨5, 1⟩]⟩
        = some res ∧
      res.hourly_profile.map (fun q => q.hour_of_day)
        = presentHours [⟨5, 7⟩, ⟨3, 2⟩, ⟨5, 1⟩] ∧
      ∃ q ∈ res.hourly_profile, q.hour_of_day = res.peak_hour ∧
        q.load = listMax
          ((hourlyProfile ⟨true, true, [⟨5, 7⟩, ⟨3, 2⟩, ⟨5, 1⟩]⟩).map
            Prod.snd) := by
  obtain ⟨res, h1, c1, _, _, _, c5, _, _, _, _⟩ :=
    analyze_load_profile_amended ⟨true, true, [⟨5, 7⟩, ⟨3, 2⟩, ⟨5, 1⟩]⟩
      rfl (by simp)
  exact ⟨res, h1, c1, c5⟩

/-- C8 counterexample: with the hour column absent the source prints a
warning and executes `return None` (optimization.py lines 47-49) — the
call yields the value None with no exception; no InputError exists
anywhere in the repository. -/
theorem analyze_no_hour_col_cex :
    analyze_load_profile ⟨false, true, [⟨5, 7⟩]⟩ = none := by
  decide

/-- C8 amended: for nonempty input, the analyzer yields None exactly
when the hour column is absent (and a populated result dict otherwise);
it never raises an InputError. -/
theorem analyze_none_iff_amended :
    ∀ t : UsageTable, t.rows ≠ [] →
      (analyze_load_profile t = none ↔ t.hasHourCol = false) := by
  intro t hrows
  cases hcol : t.hasHourCol with
  | false => simp [analyze_load_profile, hcol]
  | true =>
    have hne := hourlyProfile_ne_nil t hrows
    cases hp : hourlyProfile t with
    | nil => exact absurd hp hne
    | cons p ps => simp [analyze_load_profile, hcol, hp]

/-- Witness for `analyze_none_iff_amended` in both directions. -/
theorem analyze_none_iff_amended_witness :
    analyze_load_profile ⟨false, true, [⟨5, 7⟩]⟩ = none ∧
    analyze_load_profile ⟨true, true, [⟨5, 7⟩]⟩ ≠ none :=
  ⟨(analyze_none_iff_amended ⟨false, true, [⟨5, 7⟩]⟩ (by simp)).mpr rfl,
   fun h => by
    simpa using (analyze_none_iff_amended ⟨true, true, [⟨5, 7⟩]⟩ (by simp)).mp h⟩

/-- C6 counterexample: for N = 13 distinct stations, the spec's
candidate range 2..min(12, N−1) contains 12, but the source's
`range(2, min(12, len(X)))` stops at 11 — cluster count 12 is never
evaluated. -/
theorem kmeans_range_cex :
    (12 ∈ specCandidateKs 13) ∧ (12 ∉ candidateKs 13) ∧
    candidateKs 13 ≠ specCandidateKs 13 := by
  refine ⟨by decide, by decide, by decide⟩

/-- C6 amended: for N ≥ 3 the evaluated candidate counts are exactly
2..min(12, N)−1 (equivalently 2..min(11, N−1)), a silhouette score is
taken for each (the `sil` oracle), and the selected count is a candidate
maximizing the score (`np.argmax`, first maximizer). -/
theorem kmeans_selection_amended :
    ∀ (n : ℕ) (sil : ℕ → ℚ), 3 ≤ n →
      (∀ k, k ∈ candidateKs n ↔ 2 ≤ k ∧ k < min 12 n) ∧
      best_k sil n ∈ candidateKs n ∧
      ∀ k ∈ candidateKs n, sil k ≤ sil (best_k sil n) := by
  intro n sil hn
  have hmem : ∀ k, k ∈ candidateKs n ↔ 2 ≤ k ∧ k < min 12 n := by
    intro k
    rw [candidateKs, List.mem_range'_1]
    omega
  have hne : candidateKs n ≠ [] := by
    intro h
    have h2 : (2:ℕ) ∈ candidateKs n := (hmem 2).mpr (by omega)
    rw [h] at h2
    exact absurd h2 (List.not_mem_nil _)
  have hne2 : (candidateKs n).map sil ≠ [] := by
    simpa [List.map_eq_nil_iff] using hne
  obtain ⟨hlt, hval⟩ := argmax_spec ((candidateKs n).map sil) hne2
  have hlt' : argmaxIdx ((candidateKs n).map sil) < (candidateKs n).length := by
    simpa using hlt
  have hbest : best_k sil n
      = (candidateKs n).get ⟨argmaxIdx ((candidateKs n).map sil), hlt'⟩ := by
    rw [best_k, List.get_eq_getElem]
    exact List.getD_eq_getElem _ _ hlt'
  have hsilbest : sil (best_k sil n) = listMax ((candidateKs n).map sil) := by
    rw [hbest, ← hval, List.get_eq_getElem,
      List.getD_eq_getElem ((candidateKs n).map sil) 0 (by simpa using hlt')]
    exact (List.getElem_map _).symm
  refine ⟨hmem, ?_, ?_⟩
  · rw [hbest]
    exact List.get_mem _ _ _
  · intro k hk
    rw [hsilbest]
    exact le_listMax _ _ (List.mem_map_of_mem sil hk)

/-- Witness for `kmeans_selection_amended` at N = 5 with the identity
score. -/
theorem kmeans_selection_amended_witness :
    ((4 ∈ candidateKs 5) ↔ (2 ≤ 4 ∧ 4 < min 12 5)) ∧
    best_k (fun k => (k : ℚ)) 5 ∈ candidateKs 5 :=
  ⟨(kmeans_selection_amended 5 (fun k => (k : ℚ)) (by norm_num)).1 4,
   (kmeans_selection_amended 5 (fun k => (k : ℚ)) (by norm_num)).2.1⟩
